import Mathlib

/-!
A shallow embedding of the separate-chaining hash map from `src/lib.rs`
(a `HashMap<K, V>` built on `Vec<Vec<(K, V)>>` with a live-item counter),
together with proofs of the specification claims.

Modelling conventions:
* `Vec<Vec<(K, V)>>` becomes `List (List (K × V))`; `usize` counters become `Nat`.
* The default hasher (`DefaultHasher`, an opaque content-keyed oracle per the
  spec) becomes an arbitrary function `hash : K → Nat`; the source reduces the
  64-bit digest modulo the bucket count, which we mirror with `%` on `Nat`
  (the result of `h % len` is unaffected by first truncating `h` to 64 bits
  composed with the arbitrariness of `hash`).
* The `Borrow<Q>` query generality is instantiated at `Q = K` (the `Borrow`
  contract demands hash- and equality-agreement, so this loses nothing that
  the claims mention); `K: Eq` becomes `[DecidableEq K]`.
* Fallible operations (the `expect` in `insert`/`entry` and the slice
  indexing they guard) return `Option`: `none` models a panic.
-/

namespace BasicHashMap

/-- `HashMap<K, V>` from the source: a bucket array plus the `items` counter. -/
structure HashMap (K V : Type) where
  buckets : List (List (K × V))
  items : Nat
deriving DecidableEq

/-- `const INITIAL_NBUCKETS: usize = 1;` -/
def INITIAL_NBUCKETS : Nat := 1

namespace HashMap

variable {K V : Type} [DecidableEq K] (hash : K → Nat)

/-- `HashMap::new`: empty bucket array, zero items. -/
def new : HashMap K V := ⟨[], 0⟩

/-- Sum of the bucket lengths: the number of stored pairs. -/
def sumLens (bs : List (List (K × V))) : Nat := (bs.map List.length).sum

/-- `HashMap::bucket`: `None` on an empty bucket array, otherwise the hash of
the key reduced modulo the bucket count. -/
def bucket (m : HashMap K V) (q : K) : Option Nat :=
  if m.buckets.length = 0 then none
  else some (hash q % m.buckets.length)

/-- One step of the rehash loop in `HashMap::resize`: push the drained pair
onto `new_buckets[hash % target]`. -/
def resizeStep (target : Nat) (bs : List (List (K × V))) (kv : K × V) :
    List (List (K × V)) :=
  bs.set (hash kv.1 % target) (bs.getD (hash kv.1 % target) [] ++ [kv])

/-- `HashMap::resize`: pick the target size (1 from 0, else double), build a
fresh bucket array, drain every pair bucket-ascending (`flatten` is exactly
the `flat_map`/`drain` order) and push each into its new bucket. `items` is
not touched. -/
def resize (m : HashMap K V) : HashMap K V :=
  let target := match m.buckets.length with
    | 0 => INITIAL_NBUCKETS
    | n => 2 * n
  { buckets := m.buckets.flatten.foldl (resizeStep hash target)
      ((List.range target).map fun _ => ([] : List (K × V))),
    items := m.items }

/-- The linear replace-scan in `HashMap::insert`: find the first pair whose
key equals `k`, swap its value for `v`, and return the new bucket with the
previous value; `none` when no key matches. -/
def bucketReplace (k : K) (v : V) : List (K × V) → Option (List (K × V) × V)
  | [] => none
  | (ek, ev) :: rest =>
    if ek = k then some ((ek, v) :: rest, ev)
    else match bucketReplace k v rest with
      | some (rest', old) => some ((ek, ev) :: rest', old)
      | none => none

/-- `HashMap::insert`: resize when the bucket array is empty or the load
factor exceeds 3/4, locate the destination bucket, replace in place on a key
match (returning the old value, `items` untouched), otherwise bump `items`
and push the pair. `none` models the `expect` panic (unreachable). -/
def insert (m : HashMap K V) (k : K) (v : V) : Option (HashMap K V × Option V) :=
  let m' := if m.buckets.length = 0 ∨ 3 * m.buckets.length / 4 < m.items
    then m.resize hash else m
  match m'.bucket hash k with
  | none => none
  | some bi =>
    let b := m'.buckets.getD bi []
    match bucketReplace k v b with
    | some (b', old) => some ({ m' with buckets := m'.buckets.set bi b' }, some old)
    | none =>
      some ({ buckets := m'.buckets.set bi (b ++ [(k, v)]), items := m'.items + 1 },
        none)

/-- The linear find-scan in `HashMap::get` (`iter().find(...)` on the
destination bucket), returning the first value whose key equals `q`. -/
def bucketFind (q : K) : List (K × V) → Option V
  | [] => none
  | (ek, ev) :: rest => if ek = q then some ev else bucketFind q rest

/-- `HashMap::get`: `None` when there are no buckets (via `bucket`),
otherwise the first value in the destination bucket whose key matches. -/
def get (m : HashMap K V) (q : K) : Option V :=
  match m.bucket hash q with
  | none => none
  | some bi => bucketFind q (m.buckets.getD bi [])

/-- `HashMap::contains_key`: `get(key).is_some()`. -/
def contains_key (m : HashMap K V) (q : K) : Bool :=
  (m.get hash q).isSome

/-- The `position` scan in `HashMap::remove`/`HashMap::entry`: index of the
first pair whose key equals `q`. -/
def bucketPosition (q : K) : List (K × V) → Option Nat
  | [] => none
  | (ek, _) :: rest =>
    if ek = q then some 0 else (bucketPosition q rest).map (· + 1)

/-- `Vec::swap_remove` on the element list: overwrite slot `i` with the last
element and drop the last slot (callers only use it with `i` in bounds). -/
def swapRemoveList {α : Type} (l : List α) (i : Nat) : List α :=
  match l.getLast? with
  | none => l
  | some last => (l.set i last).dropLast

/-- `HashMap::remove`: `None` (no mutation) when there are no buckets or no
key matches; otherwise swap-remove the matching pair, decrement `items`, and
return the removed value. -/
def remove (m : HashMap K V) (q : K) : HashMap K V × Option V :=
  match m.bucket hash q with
  | none => (m, none)
  | some bi =>
    let b := m.buckets.getD bi []
    match bucketPosition q b with
    | none => (m, none)
    | some i =>
      ({ buckets := m.buckets.set bi (swapRemoveList b i), items := m.items - 1 },
        ((b.get? i).map Prod.snd))

/-- `HashMap::len`: the `items` counter. -/
def len (m : HashMap K V) : Nat := m.items

/-- `HashMap::is_empty`: `items == 0`. -/
def is_empty (m : HashMap K V) : Bool := m.items = 0

end HashMap

/-- `Entry<K, V>`: `Occupied` keeps the (borrowed) map together with the
bucket index and in-bucket index of the matching pair (modelling the
`&mut (K, V)` slot reference); `Vacant` keeps the map, the key and the
destination bucket index. -/
inductive Entry (K V : Type) where
  | Occupied (map : HashMap K V) (bucket : Nat) (index : Nat)
  | Vacant (map : HashMap K V) (key : K) (bucket : Nat)

namespace Entry

variable {K V : Type} [DecidableEq K]

/-- The table the entry handle borrows (either variant). -/
def map : Entry K V → HashMap K V
  | .Occupied m _ _ => m
  | .Vacant m _ _ => m

/-- Whether the handle is the `Vacant` variant. -/
def isVacant : Entry K V → Bool
  | .Occupied _ _ _ => false
  | .Vacant _ _ _ => true

/-- `VacantEntry::insert`: push `(key, value)` onto the captured bucket and
increment `items`. -/
def vacantInsert (m : HashMap K V) (k : K) (bi : Nat) (v : V) : HashMap K V :=
  { buckets := m.buckets.set bi (m.buckets.getD bi [] ++ [(k, v)]),
    items := m.items + 1 }

/-- `Entry::or_insert`: the map is unchanged on `Occupied`, and gains the
pair via `VacantEntry::insert` on `Vacant`. -/
def or_insert (e : Entry K V) (v : V) : HashMap K V :=
  match e with
  | .Occupied m _ _ => m
  | .Vacant m k bi => vacantInsert m k bi v

/-- `Entry::or_insert_with`: as `or_insert`, with the value produced by the
thunk in the `Vacant` arm only. -/
def or_insert_with (e : Entry K V) (maker : Unit → V) : HashMap K V :=
  match e with
  | .Occupied m _ _ => m
  | .Vacant m k bi => vacantInsert m k bi (maker ())

/-- `Entry::or_insert_with` instrumented with the number of times the thunk
is invoked: the source calls `maker()` once in the `Vacant` arm and never in
the `Occupied` arm. -/
def orInsertWithCount (e : Entry K V) (maker : Unit → V) : HashMap K V × Nat :=
  match e with
  | .Occupied m _ _ => (m, 0)
  | .Vacant m k bi => (vacantInsert m k bi (maker ()), 1)

/-- `Entry::or_default`: `or_insert_with` with the default-value thunk. -/
def or_default [Inhabited V] (e : Entry K V) : HashMap K V :=
  e.or_insert_with fun _ => default

end Entry

namespace HashMap

variable {K V : Type} [DecidableEq K] (hash : K → Nat)

/-- `HashMap::entry`: resize exactly as `insert` does, locate the
destination bucket, and return `Occupied` with the position of the matching
pair or `Vacant` with the key and bucket index. `none` models the `expect`
panic (unreachable). -/
def entry (m : HashMap K V) (k : K) : Option (Entry K V) :=
  let m' := if m.buckets.length = 0 ∨ 3 * m.buckets.length / 4 < m.items
    then m.resize hash else m
  match m'.bucket hash k with
  | none => none
  | some bi =>
    match bucketPosition k (m'.buckets.getD bi []) with
    | some i => some (.Occupied m' bi i)
    | none => some (.Vacant m' k bi)

/-- `Iter::next` (borrowing iterator): starting from `(bucket, at)`, skip
exhausted buckets and yield the pair at `(bucket, at)` together with the
advanced cursor; `none` once past the last bucket. -/
def iterNext (m : HashMap K V) (bkt at_ : Nat) :
    Option ((K × V) × Nat × Nat) :=
  match h : m.buckets.get? bkt with
  | some b =>
    match b.get? at_ with
    | some kv => some (kv, bkt, at_ + 1)
    | none => iterNext m (bkt + 1) 0
  | none => none
termination_by m.buckets.length - bkt
decreasing_by
  have hb : bkt < m.buckets.length := (List.get?_eq_some.mp h).1
  omega

end HashMap

/-- States of the table reachable through the public API: `new`, `insert`,
`remove`, and `entry` followed by dropping the handle or finalising it with
`or_insert` / `or_insert_with` (`or_default` is definitionally
`or_insert_with` of the default thunk, so it is covered). -/
inductive Reachable {K V : Type} [DecidableEq K] (hash : K → Nat) :
    HashMap K V → Prop where
  | new : Reachable hash HashMap.new
  | insert_step {m m' : HashMap K V} {k : K} {v : V} {r : Option V} :
      Reachable hash m → m.insert hash k v = some (m', r) → Reachable hash m'
  | remove_step {m : HashMap K V} {q : K} :
      Reachable hash m → Reachable hash (m.remove hash q).1
  | entry_state {m : HashMap K V} {k : K} {e : Entry K V} :
      Reachable hash m → m.entry hash k = some e → Reachable hash e.map
  | or_insert_step {m : HashMap K V} {k : K} {e : Entry K V} {v : V} :
      Reachable hash m → m.entry hash k = some e → Reachable hash (e.or_insert v)
  | or_insert_with_step {m : HashMap K V} {k : K} {e : Entry K V}
      {maker : Unit → V} :
      Reachable hash m → m.entry hash k = some e →
      Reachable hash (e.or_insert_with maker)

namespace HashMap

variable {K V : Type} [DecidableEq K] (hash : K → Nat)

/-- The shared growth-guard prefix of `insert` and `entry`: resize when the
bucket array is empty or the table is more than three-quarters loaded,
otherwise leave the table as is. `insert` and `entry` unfold to exactly this
expression (see `insert_spec` / `entry_spec`). -/
def grown (m : HashMap K V) : HashMap K V :=
  if m.buckets.length = 0 ∨ 3 * m.buckets.length / 4 < m.items then m.resize hash
  else m

/-- Repeatedly calling `Iter::next` until it yields `None` — the borrowing
traversal run to exhaustion from cursor `(bkt, at_)` — collecting the
yielded pairs in order. The well-founded recursion doubles as the
termination proof for the traversal: the cursor either advances inside the
current bucket or moves to a strictly later bucket. -/
def iterToList (m : HashMap K V) (bkt at_ : Nat) : List (K × V) :=
  match h : iterNext m bkt at_ with
  | none => []
  | some (kv, b', a') => kv :: iterToList m b' a'
termination_by (m.buckets.length - bkt, (m.buckets.getD bkt []).length - at_)
decreasing_by
  have spec : ∀ n bkt a kv b' a', m.buckets.length - bkt ≤ n →
      iterNext m bkt a = some (kv, b', a') →
      b' < m.buckets.length ∧
        ((b' = bkt ∧ a' = a + 1 ∧ a < (m.buckets.getD bkt []).length) ∨ bkt < b') := by
    intro n
    induction n with
    | zero =>
      intro bkt a kv b' a' hn hit
      rw [iterNext] at hit
      have hg : m.buckets.get? bkt = none := by
        rw [List.get?_eq_getElem?, List.getElem?_eq_none]
        omega
      rw [hg] at hit
      cases hit
    | succ n ih =>
      intro bkt a kv b' a' hn hit
      rw [iterNext] at hit
      split at hit
      · rename_i b hg
        have hbkt : bkt < m.buckets.length := (List.get?_eq_some.mp hg).1
        split at hit
        · rename_i kv' hga
          simp only [Option.some.injEq, Prod.mk.injEq] at hit
          obtain ⟨hkv, hb', ha'⟩ := hit
          have hab : a < b.length := (List.get?_eq_some.mp hga).1
          have hgd : m.buckets.getD bkt [] = b := by
            rw [List.getD_eq_getElem?_getD, ← List.get?_eq_getElem?, hg]
            rfl
          refine ⟨by omega, Or.inl ⟨by omega, by omega, by rw [hgd]; exact hab⟩⟩
        · rename_i hga
          have := ih (bkt + 1) 0 kv b' a' (by omega) hit
          exact ⟨this.1, Or.inr (by omega)⟩
      · cases hit
  have hs := spec (m.buckets.length - bkt) bkt at_ kv b' a' (Nat.le_refl _) h
  rcases hs with ⟨hlt, ⟨rfl, rfl, hab⟩ | hgt⟩
  · exact Prod.Lex.right _ (by omega)
  · exact Prod.Lex.left _ _ (by omega)

end HashMap

/-- Every stored pair lives in the bucket selected by its hash reduced
modulo the current bucket count. -/
def Placed (hash : K → Nat) (m : HashMap K V) : Prop :=
  ∀ i, i < m.buckets.length →
    ∀ p ∈ m.buckets.getD i [], hash p.1 % m.buckets.length = i

/-- The representation invariant of reachable tables: the item counter
matches the stored-pair count, a table without buckets is empty, the load
factor respects the one-over-3/4 transient ceiling, every pair is in its
home bucket, and keys are globally distinct. -/
def Inv (hash : K → Nat) (m : HashMap K V) : Prop :=
  m.items = HashMap.sumLens m.buckets ∧
  (m.buckets.length = 0 → m.items = 0) ∧
  m.items ≤ 3 * max m.buckets.length 1 / 4 + 1 ∧
  Placed hash m ∧
  (m.buckets.flatten.map Prod.fst).Nodup

end BasicHashMap

/-! ## Lemmas about the bucket scans -/

namespace BasicHashMap

open HashMap Entry

variable {K V : Type} [DecidableEq K]

theorem bucketReplace_eq_none_iff {k : K} {v : V} {b : List (K × V)} :
    bucketReplace k v b = none ↔ ∀ p ∈ b, p.1 ≠ k := by
  induction b with
  | nil => simp [bucketReplace]
  | cons p rest ih =>
    obtain ⟨ek, ev⟩ := p
    rw [bucketReplace]
    by_cases h : ek = k
    · simp [h]
    · rw [if_neg h]
      cases hr : bucketReplace k v rest with
      | none =>
        simp only [List.mem_cons]
        constructor
        · intro _ x hx
          rcases hx with h1 | h1
          · rw [h1]; exact h
          · exact ih.mp hr x h1
        · intro _; trivial
      | some pr =>
        simp only [List.mem_cons]
        constructor
        · intro hfalse; exact absurd hfalse (by simp)
        · intro hall
          exact absurd (ih.mpr fun p hp => hall p (Or.inr hp)) (by simp [hr])

theorem bucketReplace_eq_some {k : K} {v : V} : ∀ {b b' : List (K × V)} {old : V},
    bucketReplace k v b = some (b', old) →
    ∃ pre k' post, b = pre ++ (k', old) :: post ∧ k' = k ∧
      (∀ p ∈ pre, p.1 ≠ k) ∧ b' = pre ++ (k', v) :: post := by
  intro b
  induction b with
  | nil => intro b' old h; exact absurd h (by simp [bucketReplace])
  | cons p rest ih =>
    intro b' old h
    obtain ⟨ek, ev⟩ := p
    rw [bucketReplace] at h
    by_cases hek : ek = k
    · rw [if_pos hek] at h
      simp only [Option.some_inj, Prod.mk.injEq] at h
      obtain ⟨hb', hold⟩ := h
      exact ⟨[], ek, rest, by simp [hold], hek, by simp, by simp [hb']⟩
    · rw [if_neg hek] at h
      cases hr : bucketReplace k v rest with
      | none => rw [hr] at h; exact absurd h (by simp)
      | some pr =>
        obtain ⟨rest', o⟩ := pr
        rw [hr] at h
        simp only [Option.some_inj, Prod.mk.injEq] at h
        obtain ⟨hb', hold⟩ := h
        obtain ⟨pre, k', post, hb, hk, hpre, hrest'⟩ := ih (hold ▸ hr)
        refine ⟨(ek, ev) :: pre, k', post, by simp [hb], hk, ?_, by simp [← hb', hrest']⟩
        intro x hx
        rcases List.mem_cons.mp hx with h1 | h1
        · rw [h1]; exact hek
        · exact hpre x h1

theorem bucketFind_eq_none_iff {q : K} {b : List (K × V)} :
    bucketFind q b = none ↔ ∀ p ∈ b, p.1 ≠ q := by
  induction b with
  | nil => simp [bucketFind]
  | cons p rest ih =>
    obtain ⟨ek, ev⟩ := p
    by_cases h : ek = q <;> simp [bucketFind, h, ih]

theorem bucketFind_append_of_none {q : K} {b₁ b₂ : List (K × V)}
    (h : ∀ p ∈ b₁, p.1 ≠ q) :
    bucketFind q (b₁ ++ b₂) = bucketFind q b₂ := by
  induction b₁ with
  | nil => simp
  | cons p rest ih =>
    obtain ⟨ek, ev⟩ := p
    have hek : ek ≠ q := h (ek, ev) (List.mem_cons_self _ _)
    simpa [bucketFind, hek] using ih fun x hx => h x (List.mem_cons_of_mem _ hx)

theorem bucketFind_cons_self {q : K} {v : V} {rest : List (K × V)} :
    bucketFind q ((q, v) :: rest) = some v := by
  simp [bucketFind]

theorem mem_of_bucketFind_eq_some {q : K} {v : V} : ∀ {b : List (K × V)},
    bucketFind q b = some v → (q, v) ∈ b := by
  intro b
  induction b with
  | nil => intro h; exact absurd h (by simp [bucketFind])
  | cons p rest ih =>
    intro h
    obtain ⟨ek, ev⟩ := p
    by_cases hek : ek = q
    · rw [bucketFind, if_pos hek] at h
      simp only [Option.some_inj] at h
      rw [hek] at *
      rw [h]
      exact List.mem_cons_self _ _
    · rw [bucketFind, if_neg hek] at h
      exact List.mem_cons_of_mem _ (ih h)

theorem bucketPosition_eq_none_iff {q : K} {b : List (K × V)} :
    bucketPosition q b = none ↔ ∀ p ∈ b, p.1 ≠ q := by
  induction b with
  | nil => simp [bucketPosition]
  | cons p rest ih =>
    obtain ⟨ek, ev⟩ := p
    by_cases h : ek = q <;> simp [bucketPosition, h, ih]

theorem bucketPosition_eq_some {q : K} : ∀ {b : List (K × V)} {i : Nat},
    bucketPosition q b = some i →
    ∃ pre p post, b = pre ++ p :: post ∧ pre.length = i ∧ p.1 = q ∧
      ∀ x ∈ pre, x.1 ≠ q := by
  intro b
  induction b with
  | nil => intro i h; exact absurd h (by simp [bucketPosition])
  | cons p rest ih =>
    intro i h
    obtain ⟨ek, ev⟩ := p
    by_cases hek : ek = q
    · rw [bucketPosition, if_pos hek] at h
      simp only [Option.some_inj] at h
      exact ⟨[], (ek, ev), rest, by simp, by simp [← h], hek, by simp⟩
    · rw [bucketPosition, if_neg hek] at h
      cases hr : bucketPosition q rest with
      | none => rw [hr] at h; exact absurd h (by simp)
      | some j =>
        rw [hr] at h
        simp only [Option.map_some', Option.some_inj] at h
        obtain ⟨pre, p', post, hb, hlen, hp, hpre⟩ := ih hr
        refine ⟨(ek, ev) :: pre, p', post, by simp [hb], by simp [hlen, ← h], hp, ?_⟩
        intro x hx
        rcases List.mem_cons.mp hx with h1 | h1
        · rw [h1]; exact hek
        · exact hpre x h1

end BasicHashMap

/-! ## Generic list helpers -/

namespace BasicHashMap

open HashMap Entry

variable {K V : Type} [DecidableEq K]

theorem getD_eq_getElem {α : Type} {l : List α} {i : Nat} (d : α) (h : i < l.length) :
    l.getD i d = l[i] := by
  simp [List.getD_eq_getElem?_getD, List.getElem?_eq_getElem h]

theorem getD_eq_default {α : Type} {l : List α} {i : Nat} (d : α) (h : l.length ≤ i) :
    l.getD i d = d := by
  simp [List.getD_eq_getElem?_getD, List.getElem?_eq_none h]

theorem getD_set_self {α : Type} {l : List α} {i : Nat} {x : α} (d : α)
    (h : i < l.length) : (l.set i x).getD i d = x := by
  simp [List.getD_eq_getElem?_getD, List.getElem?_set_self h]

theorem getD_set_ne {α : Type} {l : List α} {i j : Nat} {x : α} (d : α)
    (h : i ≠ j) : (l.set j x).getD i d = l.getD i d := by
  simp [List.getD_eq_getElem?_getD, List.getElem?_set_ne (Ne.symm h)]

theorem flatten_set {α : Type} (bs : List (List α)) (i : Nat) (x : List α)
    (h : i < bs.length) :
    (bs.set i x).flatten = (bs.take i).flatten ++ (x ++ (bs.drop (i + 1)).flatten) := by
  rw [List.set_eq_take_append_cons_drop, if_pos h, List.flatten_append, List.flatten_cons]

theorem flatten_decomp {α : Type} (bs : List (List α)) (i : Nat) (h : i < bs.length) :
    bs.flatten = (bs.take i).flatten ++ (bs[i] ++ (bs.drop (i + 1)).flatten) := by
  conv_lhs => rw [← List.take_append_drop i bs, List.drop_eq_getElem_cons h]
  rw [List.flatten_append, List.flatten_cons]

theorem sumLens_eq_flatten_length (bs : List (List (K × V))) :
    sumLens bs = bs.flatten.length := by
  rw [sumLens, List.length_flatten]

/-- The middle-insertion permutation used for set-with-append on a bucket
array: replacing bucket `i` by itself plus an extra suffix element permutes
the flattened contents by consing that element. -/
theorem flatten_set_append_perm {α : Type} (bs : List (List α)) (i : Nat) (x : α)
    (h : i < bs.length) :
    ((bs.set i (bs.getD i [] ++ [x])).flatten).Perm (x :: bs.flatten) := by
  rw [flatten_set bs i _ h, getD_eq_getElem [] h]
  conv_rhs => rw [flatten_decomp bs i h]
  have e1 : (bs.take i).flatten ++ (bs[i] ++ [x] ++ (bs.drop (i + 1)).flatten) =
      ((bs.take i).flatten ++ bs[i]) ++ ([x] ++ (bs.drop (i + 1)).flatten) := by
    simp [List.append_assoc]
  have e2 : x :: ((bs.take i).flatten ++ (bs[i] ++ (bs.drop (i + 1)).flatten)) =
      [x] ++ (((bs.take i).flatten ++ bs[i]) ++ (bs.drop (i + 1)).flatten) := by
    simp [List.append_assoc]
  rw [e1, e2]
  have h3 : (((bs.take i).flatten ++ bs[i]) ++ ([x] ++ (bs.drop (i + 1)).flatten)).Perm
      (([x] ++ (bs.drop (i + 1)).flatten) ++ ((bs.take i).flatten ++ bs[i])) :=
    List.perm_append_comm
  refine h3.trans ?_
  have h4 : ((bs.drop (i + 1)).flatten ++ ((bs.take i).flatten ++ bs[i])).Perm
      (((bs.take i).flatten ++ bs[i]) ++ (bs.drop (i + 1)).flatten) :=
    List.perm_append_comm
  simpa [List.append_assoc] using h4.cons x

/-! ## swap_remove lemmas -/

theorem swapRemoveList_perm_eraseIdx {α : Type} {l : List α} {i : Nat}
    (h : i < l.length) : (swapRemoveList l i).Perm (l.eraseIdx i) := by
  rcases List.eq_nil_or_concat l with rfl | ⟨L, b, hl⟩
  · simp at h
  · rw [List.concat_eq_append] at hl
    subst hl
    simp only [swapRemoveList, List.getLast?_concat]
    rcases Nat.lt_or_ge i L.length with hiL | hiL
    · rw [List.set_append_left _ _ hiL, List.dropLast_concat,
        List.eraseIdx_append_of_lt_length hiL]
      rw [List.set_eq_take_append_cons_drop, if_pos hiL,
        List.eraseIdx_eq_take_drop_succ]
      have h1 : (List.take i L ++ b :: List.drop (i + 1) L).Perm
          (b :: (List.take i L ++ List.drop (i + 1) L)) := List.perm_middle
      exact h1.trans (List.perm_append_singleton b _).symm
    · have hi : i = L.length := by
        have := h
        simp only [List.length_append, List.length_cons, List.length_nil] at this
        omega
      subst hi
      have hset : (L ++ [b]).set L.length b = L ++ [b] := by
        rw [List.set_append_right] <;> simp
      rw [hset, List.dropLast_concat]
      have herase : (L ++ [b]).eraseIdx L.length = L := by
        simp [List.eraseIdx_eq_take_drop_succ]
      rw [herase]

theorem swapRemoveList_length {α : Type} {l : List α} {i : Nat} (h : i < l.length) :
    (swapRemoveList l i).length = l.length - 1 := by
  rw [(swapRemoveList_perm_eraseIdx h).length_eq, List.length_eraseIdx_of_lt h]

end BasicHashMap

/-! ## resize lemmas -/

namespace BasicHashMap

open HashMap Entry

variable {K V : Type} [DecidableEq K] (hash : K → Nat)

theorem resizeStep_length {t : Nat} (bs : List (List (K × V))) (kv : K × V) :
    (resizeStep hash t bs kv).length = bs.length := by
  simp [resizeStep]

theorem resizeFold_length {t : Nat} :
    ∀ (l : List (K × V)) (bs : List (List (K × V))),
    (l.foldl (resizeStep hash t) bs).length = bs.length := by
  intro l
  induction l with
  | nil => intro bs; rfl
  | cons kv rest ih =>
    intro bs
    rw [List.foldl_cons, ih, resizeStep_length]

theorem resizeStep_flatten_perm {t : Nat} (ht : 0 < t) {bs : List (List (K × V))}
    (hbs : bs.length = t) (kv : K × V) :
    ((resizeStep hash t bs kv).flatten).Perm (kv :: bs.flatten) := by
  have hi : hash kv.1 % t < bs.length := by rw [hbs]; exact Nat.mod_lt _ ht
  exact flatten_set_append_perm bs _ kv hi

theorem resizeFold_flatten_perm {t : Nat} (ht : 0 < t) :
    ∀ (l : List (K × V)) (bs : List (List (K × V))), bs.length = t →
    ((l.foldl (resizeStep hash t) bs).flatten).Perm (bs.flatten ++ l) := by
  intro l
  induction l with
  | nil => intro bs _; simp
  | cons kv rest ih =>
    intro bs hbs
    rw [List.foldl_cons]
    have h2 := ih (resizeStep hash t bs kv) ((resizeStep_length hash bs kv).trans hbs)
    refine h2.trans ?_
    have h1 := (resizeStep_flatten_perm hash ht hbs kv).append (List.Perm.refl rest)
    exact h1.trans List.perm_middle.symm

theorem resizeFold_placed {t : Nat} :
    ∀ (l : List (K × V)) (bs : List (List (K × V))), bs.length = t →
    (∀ i, i < t → ∀ p ∈ bs.getD i [], hash p.1 % t = i) →
    ∀ i, i < t → ∀ p ∈ (l.foldl (resizeStep hash t) bs).getD i [], hash p.1 % t = i := by
  intro l
  induction l with
  | nil => intro bs _ hplaced; exact hplaced
  | cons kv rest ih =>
    intro bs hbs hplaced
    rw [List.foldl_cons]
    refine ih _ ((resizeStep_length hash bs kv).trans hbs) ?_
    intro i hi p hp
    rw [resizeStep] at hp
    by_cases hij : i = hash kv.1 % t
    · rw [hij] at hp hi ⊢
      rw [getD_set_self [] (hbs ▸ hi)] at hp
      rcases List.mem_append.mp hp with h1 | h1
      · exact hplaced _ hi p h1
      · rw [List.mem_singleton.mp h1]
    · rw [getD_set_ne [] hij] at hp
      exact hplaced i hi p hp

end BasicHashMap

/-! ## Top-level resize facts and the representation invariant -/

namespace BasicHashMap

open HashMap Entry

variable {K V : Type} [DecidableEq K] (hash : K → Nat)

theorem getD_eq_of_all {α : Type} {l : List α} {d : α} (h : ∀ x ∈ l, x = d) (i : Nat) :
    l.getD i d = d := by
  rcases Nat.lt_or_ge i l.length with hi | hi
  · rw [getD_eq_getElem d hi]; exact h _ (List.getElem_mem _)
  · exact getD_eq_default d hi

theorem resize_items (m : HashMap K V) : (m.resize hash).items = m.items := rfl

theorem resize_buckets_length (m : HashMap K V) :
    (m.resize hash).buckets.length =
      if m.buckets.length = 0 then 1 else 2 * m.buckets.length := by
  cases hn : m.buckets.length with
  | zero =>
    simp [resize, hn, resizeFold_length, INITIAL_NBUCKETS]
  | succ n =>
    simp [resize, hn, resizeFold_length]

theorem resize_buckets_pos (m : HashMap K V) : 0 < (m.resize hash).buckets.length := by
  rw [resize_buckets_length]
  split <;> omega

theorem resize_flatten_perm (m : HashMap K V) :
    ((m.resize hash).buckets.flatten).Perm m.buckets.flatten := by
  have hinit : ∀ x ∈ (List.range (match m.buckets.length with
      | 0 => INITIAL_NBUCKETS | n => 2 * n)).map (fun _ => ([] : List (K × V))),
      x = [] := by
    intro x hx
    rcases List.mem_map.mp hx with ⟨_, _, rfl⟩
    rfl
  have ht : 0 < (match m.buckets.length with | 0 => INITIAL_NBUCKETS | n => 2 * n) := by
    cases m.buckets.length <;> simp [INITIAL_NBUCKETS]
  have h := resizeFold_flatten_perm hash ht m.buckets.flatten
    ((List.range (match m.buckets.length with
      | 0 => INITIAL_NBUCKETS | n => 2 * n)).map (fun _ => ([] : List (K × V))))
    (by simp)
  have hflat : ((List.range (match m.buckets.length with
      | 0 => INITIAL_NBUCKETS | n => 2 * n)).map
        (fun _ => ([] : List (K × V)))).flatten = [] := by
    rw [List.flatten_eq_nil_iff]
    exact hinit
  rw [resize]
  simpa [hflat] using h

theorem resize_placed (m : HashMap K V) :
    ∀ i, i < (m.resize hash).buckets.length →
      ∀ p ∈ (m.resize hash).buckets.getD i [],
        hash p.1 % (m.resize hash).buckets.length = i := by
  have ht : 0 < (match m.buckets.length with | 0 => INITIAL_NBUCKETS | n => 2 * n) := by
    cases m.buckets.length <;> simp [INITIAL_NBUCKETS]
  have hlen : (m.resize hash).buckets.length =
      (match m.buckets.length with | 0 => INITIAL_NBUCKETS | n => 2 * n) := by
    rw [resize]
    simp [resizeFold_length]
  rw [hlen]
  refine resizeFold_placed hash m.buckets.flatten _ (by simp) ?_
  intro i hi p hp
  rw [getD_eq_of_all (by intro x hx; rcases List.mem_map.mp hx with ⟨_, _, rfl⟩; rfl) i] at hp
  exact absurd hp (List.not_mem_nil p)

theorem inv_new : Inv hash (new : HashMap K V) := by
  refine ⟨rfl, fun _ => rfl, by simp [new], ?_, by simp [new]⟩
  intro i hi
  simp [new] at hi

end BasicHashMap

/-! ## Membership characterisation of `get` -/

namespace BasicHashMap

open HashMap Entry

variable {K V : Type} [DecidableEq K] (hash : K → Nat)

theorem mem_flatten_iff_getD {α : Type} {bs : List (List α)} {a : α} :
    a ∈ bs.flatten ↔ ∃ i, i < bs.length ∧ a ∈ bs.getD i [] := by
  rw [List.mem_flatten]
  constructor
  · rintro ⟨s, hs, ha⟩
    rcases List.mem_iff_getElem.mp hs with ⟨i, hi, rfl⟩
    exact ⟨i, hi, by rw [getD_eq_getElem [] hi]; exact ha⟩
  · rintro ⟨i, hi, ha⟩
    exact ⟨bs.getD i [], by rw [getD_eq_getElem [] hi]; exact List.getElem_mem _, ha⟩

theorem eq_of_mem_of_nodup_keys {l : List (K × V)} (hnd : (l.map Prod.fst).Nodup)
    {k : K} {v w : V} (hv : (k, v) ∈ l) (hw : (k, w) ∈ l) : v = w := by
  induction l with
  | nil => cases hv
  | cons p rest ih =>
    rw [List.map_cons, List.nodup_cons] at hnd
    obtain ⟨hnot, hrest⟩ := hnd
    rcases List.mem_cons.mp hv with h1 | h1
    · subst h1
      rcases List.mem_cons.mp hw with h2 | h2
      · exact ((Prod.mk.injEq _ _ _ _).mp h2.symm).2
      · exact absurd (List.mem_map_of_mem Prod.fst h2) (by simpa using hnot)
    · rcases List.mem_cons.mp hw with h2 | h2
      · subst h2
        exact absurd (List.mem_map_of_mem Prod.fst h1) (by simpa using hnot)
      · exact ih hrest h1 h2

theorem get_eq_some_iff {m : HashMap K V} (hP : Placed hash m)
    (hnd : (m.buckets.flatten.map Prod.fst).Nodup) {k : K} {v : V} :
    m.get hash k = some v ↔ (k, v) ∈ m.buckets.flatten := by
  rw [HashMap.get]
  by_cases h0 : m.buckets.length = 0
  · have hnil : m.buckets = [] := List.length_eq_zero.mp h0
    rw [bucket, if_pos h0]
    simp [hnil]
  · rw [bucket, if_neg h0]
    show bucketFind k (m.buckets.getD (hash k % m.buckets.length) []) = some v ↔
      (k, v) ∈ m.buckets.flatten
    have hlt : hash k % m.buckets.length < m.buckets.length :=
      Nat.mod_lt _ (Nat.pos_of_ne_zero h0)
    constructor
    · intro hfind
      exact mem_flatten_iff_getD.mpr ⟨_, hlt, mem_of_bucketFind_eq_some hfind⟩
    · intro hmem
      rcases mem_flatten_iff_getD.mp hmem with ⟨i, hi, hin⟩
      have hhome : hash k % m.buckets.length = i := hP i hi (k, v) hin
      subst hhome
      cases hf : bucketFind k (m.buckets.getD (hash k % m.buckets.length) []) with
      | none => exact absurd rfl (bucketFind_eq_none_iff.mp hf (k, v) hin)
      | some w =>
        have hwmem : (k, w) ∈ m.buckets.flatten :=
          mem_flatten_iff_getD.mpr ⟨_, hlt, mem_of_bucketFind_eq_some hf⟩
        rw [eq_of_mem_of_nodup_keys hnd hwmem hmem]

theorem get_eq_none_iff {m : HashMap K V} (hP : Placed hash m) {k : K} :
    m.get hash k = none ↔ ∀ p ∈ m.buckets.flatten, p.1 ≠ k := by
  rw [HashMap.get]
  by_cases h0 : m.buckets.length = 0
  · have hnil : m.buckets = [] := List.length_eq_zero.mp h0
    rw [bucket, if_pos h0]
    simp [hnil]
  · rw [bucket, if_neg h0]
    show bucketFind k (m.buckets.getD (hash k % m.buckets.length) []) = none ↔
      ∀ p ∈ m.buckets.flatten, p.1 ≠ k
    rw [bucketFind_eq_none_iff]
    constructor
    · intro hnone p hp hpk
      rcases mem_flatten_iff_getD.mp hp with ⟨i, hi, hin⟩
      have hhome : hash p.1 % m.buckets.length = i := hP i hi p hin
      refine hnone p ?_ hpk
      rw [← hpk, hhome]
      exact hin
    · intro hall p hp
      refine hall p ?_
      exact mem_flatten_iff_getD.mpr ⟨_, Nat.mod_lt _ (Nat.pos_of_ne_zero h0), hp⟩

end BasicHashMap

/-! ## The growth guard -/

namespace BasicHashMap

open HashMap Entry

variable {K V : Type} [DecidableEq K] (hash : K → Nat)

theorem grown_buckets_pos (m : HashMap K V) : 0 < (grown hash m).buckets.length := by
  rw [grown]
  split
  · exact resize_buckets_pos hash m
  · rename_i h
    push_neg at h
    exact Nat.pos_of_ne_zero h.1

theorem grown_items (m : HashMap K V) : (grown hash m).items = m.items := by
  rw [grown]
  split <;> rfl

theorem grown_flatten_perm (m : HashMap K V) :
    ((grown hash m).buckets.flatten).Perm m.buckets.flatten := by
  rw [grown]
  split
  · exact resize_flatten_perm hash m
  · exact List.Perm.refl _

theorem grown_placed {m : HashMap K V} (hP : Placed hash m) :
    Placed hash (grown hash m) := by
  rw [grown]
  split
  · exact resize_placed hash m
  · exact hP

theorem grown_load {m : HashMap K V} (hInv : Inv hash m) :
    (grown hash m).items ≤ 3 * (grown hash m).buckets.length / 4 := by
  obtain ⟨-, h0, hload, -, -⟩ := hInv
  rw [grown]
  split
  · rename_i hc
    rw [resize_items, resize_buckets_length]
    by_cases hz : m.buckets.length = 0
    · rw [if_pos hz, h0 hz]
    · rw [if_neg hz]
      have hmax : max m.buckets.length 1 = m.buckets.length :=
        Nat.max_eq_left (by omega)
      rw [hmax] at hload
      omega
  · rename_i hc
    push_neg at hc
    exact hc.2

theorem grown_inv {m : HashMap K V} (hInv : Inv hash m) : Inv hash (grown hash m) := by
  obtain ⟨hcount, h0, hload, hP, hnd⟩ := hInv
  have hpos := grown_buckets_pos hash m
  have hperm := grown_flatten_perm hash m
  refine ⟨?_, by omega, ?_, grown_placed hash hP, (hperm.symm.map Prod.fst).nodup hnd⟩
  · rw [sumLens_eq_flatten_length, hperm.length_eq, grown_items,
      ← sumLens_eq_flatten_length, hcount]
  · have := grown_load hash ⟨hcount, h0, hload, hP, hnd⟩
    have hmax : max (grown hash m).buckets.length 1 = (grown hash m).buckets.length :=
      Nat.max_eq_left (by omega)
    omega

/-! ## Unfolding `insert` and `entry` through the guard -/

theorem insert_spec (m : HashMap K V) (k : K) (v : V) :
    (∃ b' old, bucketReplace k v
        ((grown hash m).buckets.getD (hash k % (grown hash m).buckets.length) []) =
          some (b', old) ∧
      m.insert hash k v = some (⟨(grown hash m).buckets.set
          (hash k % (grown hash m).buckets.length) b', (grown hash m).items⟩,
        some old)) ∨
    (bucketReplace k v
        ((grown hash m).buckets.getD (hash k % (grown hash m).buckets.length) []) =
          none ∧
      m.insert hash k v = some (⟨(grown hash m).buckets.set
          (hash k % (grown hash m).buckets.length)
          ((grown hash m).buckets.getD (hash k % (grown hash m).buckets.length) []
            ++ [(k, v)]),
        (grown hash m).items + 1⟩, none)) := by
  have hp : 0 < (grown hash m).buckets.length := grown_buckets_pos hash m
  have hb : (grown hash m).bucket hash k =
      some (hash k % (grown hash m).buckets.length) := by
    rw [bucket, if_neg (by omega)]
  cases hrep : bucketReplace k v
      ((grown hash m).buckets.getD (hash k % (grown hash m).buckets.length) []) with
  | some pr =>
    obtain ⟨b', old⟩ := pr
    refine Or.inl ⟨b', old, rfl, ?_⟩
    rw [HashMap.insert, ← grown, hb]
    show (match bucketReplace k v
        ((grown hash m).buckets.getD (hash k % (grown hash m).buckets.length) []) with
      | some (c, old) => some (HashMap.mk ((grown hash m).buckets.set
          (hash k % (grown hash m).buckets.length) c) (grown hash m).items,
          some old)
      | none => some (HashMap.mk ((grown hash m).buckets.set
          (hash k % (grown hash m).buckets.length)
          ((grown hash m).buckets.getD (hash k % (grown hash m).buckets.length) []
            ++ [(k, v)])) ((grown hash m).items + 1), none)) = _
    rw [hrep]
  | none =>
    refine Or.inr ⟨rfl, ?_⟩
    rw [HashMap.insert, ← grown, hb]
    show (match bucketReplace k v
        ((grown hash m).buckets.getD (hash k % (grown hash m).buckets.length) []) with
      | some (c, old) => some (HashMap.mk ((grown hash m).buckets.set
          (hash k % (grown hash m).buckets.length) c) (grown hash m).items,
          some old)
      | none => some (HashMap.mk ((grown hash m).buckets.set
          (hash k % (grown hash m).buckets.length)
          ((grown hash m).buckets.getD (hash k % (grown hash m).buckets.length) []
            ++ [(k, v)])) ((grown hash m).items + 1), none)) = _
    rw [hrep]

end BasicHashMap

namespace BasicHashMap

open HashMap Entry

variable {K V : Type} [DecidableEq K] (hash : K → Nat)

theorem entry_spec (m : HashMap K V) (k : K) :
    (∃ i, bucketPosition k
        ((grown hash m).buckets.getD (hash k % (grown hash m).buckets.length) []) =
          some i ∧
      m.entry hash k = some (Entry.Occupied (grown hash m)
        (hash k % (grown hash m).buckets.length) i)) ∨
    (bucketPosition k
        ((grown hash m).buckets.getD (hash k % (grown hash m).buckets.length) []) =
          none ∧
      m.entry hash k = some (Entry.Vacant (grown hash m) k
        (hash k % (grown hash m).buckets.length))) := by
  have hp : 0 < (grown hash m).buckets.length := grown_buckets_pos hash m
  have hb : (grown hash m).bucket hash k =
      some (hash k % (grown hash m).buckets.length) := by
    rw [bucket, if_neg (by omega)]
  cases hpos : bucketPosition k
      ((grown hash m).buckets.getD (hash k % (grown hash m).buckets.length) []) with
  | some i =>
    refine Or.inl ⟨i, rfl, ?_⟩
    rw [HashMap.entry, ← grown, hb]
    show (match bucketPosition k
        ((grown hash m).buckets.getD (hash k % (grown hash m).buckets.length) []) with
      | some i => some (Entry.Occupied (grown hash m)
          (hash k % (grown hash m).buckets.length) i)
      | none => some (Entry.Vacant (grown hash m) k
          (hash k % (grown hash m).buckets.length))) = _
    rw [hpos]
  | none =>
    refine Or.inr ⟨rfl, ?_⟩
    rw [HashMap.entry, ← grown, hb]
    show (match bucketPosition k
        ((grown hash m).buckets.getD (hash k % (grown hash m).buckets.length) []) with
      | some i => some (Entry.Occupied (grown hash m)
          (hash k % (grown hash m).buckets.length) i)
      | none => some (Entry.Vacant (grown hash m) k
          (hash k % (grown hash m).buckets.length))) = _
    rw [hpos]

end BasicHashMap

/-! ## Invariant preservation -/

namespace BasicHashMap

open HashMap Entry

variable {K V : Type} [DecidableEq K] (hash : K → Nat)

theorem not_mem_keys_of_absent {M : HashMap K V} (hP : Placed hash M) {k : K}
    (habs : ∀ p ∈ M.buckets.getD (hash k % M.buckets.length) [], p.1 ≠ k) :
    k ∉ M.buckets.flatten.map Prod.fst := by
  intro hk
  rcases List.mem_map.mp hk with ⟨p, hp, hpk⟩
  rcases mem_flatten_iff_getD.mp hp with ⟨i, hi, hin⟩
  have hhome := hP i hi p hin
  rw [hpk] at hhome
  exact habs p (hhome ▸ hin) hpk

theorem inv_replace {M : HashMap K V} (hInvM : Inv hash M)
    (hpos : 0 < M.buckets.length) {k : K} {v old : V} {c : List (K × V)}
    (hrep : bucketReplace k v
      (M.buckets.getD (hash k % M.buckets.length) []) = some (c, old)) :
    Inv hash (⟨M.buckets.set (hash k % M.buckets.length) c, M.items⟩ : HashMap K V) := by
  obtain ⟨hcount, h0, hload, hP, hnd⟩ := hInvM
  set bi := hash k % M.buckets.length with hbi
  have hbilt : bi < M.buckets.length := Nat.mod_lt _ hpos
  obtain ⟨pre, k', post, hb, hkk, hpre, hc⟩ := bucketReplace_eq_some hrep
  have hkeys : c.map Prod.fst = (M.buckets.getD bi []).map Prod.fst := by
    rw [hb, hc]; simp
  have hlen : c.length = (M.buckets.getD bi []).length := by rw [hb, hc]; simp
  have hfs := flatten_set M.buckets bi c hbilt
  have hfd := flatten_decomp M.buckets bi hbilt
  have hget : M.buckets[bi] = M.buckets.getD bi [] := (getD_eq_getElem [] hbilt).symm
  refine ⟨?_, ?_, ?_, ?_, ?_⟩
  · show M.items = sumLens (M.buckets.set bi c)
    rw [sumLens_eq_flatten_length, hfs]
    conv_lhs => rw [hcount, sumLens_eq_flatten_length, hfd, hget]
    simp [hlen]
  · intro hl
    rw [List.length_set] at hl
    omega
  · show M.items ≤ _
    simpa [List.length_set] using hload
  · intro i hi p hp
    simp only [List.length_set] at hi ⊢
    by_cases hij : i = bi
    · subst hij
      rw [getD_set_self [] hbilt] at hp
      have hmem : p.1 ∈ (M.buckets.getD bi []).map Prod.fst := by
        rw [← hkeys]
        exact List.mem_map_of_mem _ hp
      rcases List.mem_map.mp hmem with ⟨p₀, hp₀, hk₀⟩
      rw [← hk₀]
      exact hP bi hi p₀ hp₀
    · rw [getD_set_ne [] hij] at hp
      exact hP i hi p hp
  · show ((M.buckets.set bi c).flatten.map Prod.fst).Nodup
    rw [hfs]
    have hkeq : ((M.buckets.take bi).flatten
          ++ (c ++ (M.buckets.drop (bi + 1)).flatten)).map Prod.fst
        = ((M.buckets.take bi).flatten
          ++ (M.buckets.getD bi [] ++ (M.buckets.drop (bi + 1)).flatten)).map Prod.fst := by
      simp [hkeys]
    rw [hkeq, ← hget, ← hfd]
    exact hnd

theorem inv_append_new {M : HashMap K V} (hInvM : Inv hash M)
    (hload : M.items ≤ 3 * M.buckets.length / 4)
    (hpos : 0 < M.buckets.length) {k : K} {v : V}
    (habs : ∀ p ∈ M.buckets.getD (hash k % M.buckets.length) [], p.1 ≠ k) :
    Inv hash (vacantInsert M k (hash k % M.buckets.length) v) := by
  obtain ⟨hcount, h0, _, hP, hnd⟩ := hInvM
  set bi := hash k % M.buckets.length with hbi
  have hbilt : bi < M.buckets.length := Nat.mod_lt _ hpos
  have hperm := flatten_set_append_perm M.buckets bi (k, v) hbilt
  have hknotin := not_mem_keys_of_absent hash hP habs
  rw [vacantInsert]
  refine ⟨?_, ?_, ?_, ?_, ?_⟩
  · show M.items + 1 = _
    rw [sumLens_eq_flatten_length, hperm.length_eq]
    rw [sumLens_eq_flatten_length] at hcount
    simp [hcount]
  · intro hl
    rw [List.length_set] at hl
    omega
  · show M.items + 1 ≤ _
    simp only [List.length_set]
    rw [Nat.max_eq_left (by omega : 1 ≤ M.buckets.length)]
    omega
  · intro i hi p hp
    simp only [List.length_set] at hi ⊢
    by_cases hij : i = bi
    · subst hij
      rw [getD_set_self [] hbilt] at hp
      rcases List.mem_append.mp hp with h1 | h1
      · exact hP bi hi p h1
      · rw [List.mem_singleton.mp h1]
    · rw [getD_set_ne [] hij] at hp
      exact hP i hi p hp
  · have hkperm := hperm.map Prod.fst
    refine (hkperm.symm).nodup ?_
    simp only [List.map_cons]
    exact List.nodup_cons.mpr ⟨hknotin, hnd⟩

end BasicHashMap

namespace BasicHashMap

open HashMap Entry

variable {K V : Type} [DecidableEq K] (hash : K → Nat)

theorem remove_spec (m : HashMap K V) (q : K) :
    (m.bucket hash q = none ∧ m.remove hash q = (m, none)) ∨
    (∃ bi, m.bucket hash q = some bi ∧
      bucketPosition q (m.buckets.getD bi []) = none ∧
      m.remove hash q = (m, none)) ∨
    (∃ bi i, m.bucket hash q = some bi ∧
      bucketPosition q (m.buckets.getD bi []) = some i ∧
      m.remove hash q = (⟨m.buckets.set bi
          (swapRemoveList (m.buckets.getD bi []) i), m.items - 1⟩,
        ((m.buckets.getD bi []).get? i).map Prod.snd)) := by
  cases hb : m.bucket hash q with
  | none =>
    refine Or.inl ⟨rfl, ?_⟩
    rw [HashMap.remove, hb]
  | some bi =>
    cases hpos : bucketPosition q (m.buckets.getD bi []) with
    | none =>
      refine Or.inr (Or.inl ⟨bi, rfl, hpos, ?_⟩)
      rw [HashMap.remove, hb]
      show (match bucketPosition q (m.buckets.getD bi []) with
        | none => (m, none)
        | some i => (HashMap.mk (m.buckets.set bi
            (swapRemoveList (m.buckets.getD bi []) i)) (m.items - 1),
          ((m.buckets.getD bi []).get? i).map Prod.snd)) = _
      rw [hpos]
    | some i =>
      refine Or.inr (Or.inr ⟨bi, i, rfl, hpos, ?_⟩)
      rw [HashMap.remove, hb]
      show (match bucketPosition q (m.buckets.getD bi []) with
        | none => (m, none)
        | some i => (HashMap.mk (m.buckets.set bi
            (swapRemoveList (m.buckets.getD bi []) i)) (m.items - 1),
          ((m.buckets.getD bi []).get? i).map Prod.snd)) = _
      rw [hpos]

theorem bucket_eq_some_elim {m : HashMap K V} {q : K} {bi : Nat}
    (hb : m.bucket hash q = some bi) :
    0 < m.buckets.length ∧ bi = hash q % m.buckets.length ∧
      bi < m.buckets.length := by
  rw [bucket] at hb
  by_cases h0 : m.buckets.length = 0
  · rw [if_pos h0] at hb; cases hb
  · rw [if_neg h0] at hb
    have := Option.some.inj hb
    refine ⟨Nat.pos_of_ne_zero h0, this.symm, ?_⟩
    rw [← this]
    exact Nat.mod_lt _ (Nat.pos_of_ne_zero h0)

theorem inv_remove {m : HashMap K V} (hInv : Inv hash m) (q : K) :
    Inv hash (m.remove hash q).1 := by
  rcases remove_spec hash m q with ⟨-, heq⟩ | ⟨bi, hb, -, heq⟩ | ⟨bi, i, hb, hpos, heq⟩
  · rw [heq]; exact hInv
  · rw [heq]; exact hInv
  · rw [heq]
    obtain ⟨hcount, h0, hload, hP, hnd⟩ := hInv
    obtain ⟨hlpos, hbiv, hbilt⟩ := bucket_eq_some_elim hash hb
    obtain ⟨pre, p, post, hbdecomp, hprelen, hpq, hpre⟩ := bucketPosition_eq_some hpos
    have hib : i < (m.buckets.getD bi []).length := by
      rw [hbdecomp, ← hprelen]
      simp
    have hswap := swapRemoveList_perm_eraseIdx hib
    have hsub : List.Sublist ((m.buckets.getD bi []).eraseIdx i)
        (m.buckets.getD bi []) := List.eraseIdx_sublist _ _
    have hfs := flatten_set m.buckets bi (swapRemoveList (m.buckets.getD bi []) i) hbilt
    have hfd := flatten_decomp m.buckets bi hbilt
    have hget : m.buckets[bi] = m.buckets.getD bi [] := (getD_eq_getElem [] hbilt).symm
    have hblen : 0 < (m.buckets.getD bi []).length := by omega
    have hflen : (m.buckets.getD bi []).length ≤ m.buckets.flatten.length := by
      rw [hfd, hget]
      simp
      omega
    refine ⟨?_, ?_, ?_, ?_, ?_⟩
    · show m.items - 1 = sumLens _
      rw [sumLens_eq_flatten_length, hfs]
      rw [sumLens_eq_flatten_length] at hcount
      rw [hcount]
      conv_lhs => rw [hfd, hget]
      have hsl : (swapRemoveList (m.buckets.getD bi []) i).length =
          (m.buckets.getD bi []).length - 1 := swapRemoveList_length hib
      simp only [List.length_append, hsl]
      omega
    · intro hl
      rw [List.length_set] at hl
      omega
    · show m.items - 1 ≤ _
      simp only [List.length_set]
      omega
    · intro j hj p' hp'
      simp only [List.length_set] at hj ⊢
      by_cases hij : j = bi
      · rw [hij] at hp' ⊢
        rw [getD_set_self [] hbilt] at hp'
        have hmem : p' ∈ m.buckets.getD bi [] :=
          hsub.subset (hswap.mem_iff.mp hp')
        exact hP bi hbilt p' hmem
      · rw [getD_set_ne [] hij] at hp'
        exact hP j hj p' hp'
    · show ((m.buckets.set bi _).flatten.map Prod.fst).Nodup
      rw [hfs]
      have hperm : ((m.buckets.take bi).flatten ++ (swapRemoveList (m.buckets.getD bi []) i
            ++ (m.buckets.drop (bi + 1)).flatten)).Perm
          ((m.buckets.take bi).flatten ++ ((m.buckets.getD bi []).eraseIdx i
            ++ (m.buckets.drop (bi + 1)).flatten)) :=
        List.Perm.append_left _ (hswap.append (List.Perm.refl _))
      have hsubl : List.Sublist ((m.buckets.take bi).flatten
            ++ ((m.buckets.getD bi []).eraseIdx i
              ++ (m.buckets.drop (bi + 1)).flatten)) m.buckets.flatten := by
        rw [hfd, hget]
        exact (List.Sublist.refl _).append ((List.eraseIdx_sublist _ _).append
          (List.Sublist.refl _))
      exact ((hperm.map Prod.fst).symm).nodup (hnd.sublist (hsubl.map Prod.fst))

end BasicHashMap

namespace BasicHashMap

open HashMap Entry

variable {K V : Type} [DecidableEq K] (hash : K → Nat)

theorem inv_insert {m m' : HashMap K V} {k : K} {v : V} {r : Option V}
    (hInv : Inv hash m) (h : m.insert hash k v = some (m', r)) : Inv hash m' := by
  have hInvM := grown_inv hash hInv
  have hload := grown_load hash hInv
  have hpos := grown_buckets_pos hash m
  rcases insert_spec hash m k v with ⟨c, old, hrep, heq⟩ | ⟨hrep, heq⟩
  · have h2 : (m', r) = _ := Option.some.inj (h.symm.trans heq)
    rw [Prod.mk.injEq] at h2
    obtain ⟨rfl, rfl⟩ := h2
    exact inv_replace hash hInvM hpos hrep
  · have h2 : (m', r) = _ := Option.some.inj (h.symm.trans heq)
    rw [Prod.mk.injEq] at h2
    obtain ⟨rfl, rfl⟩ := h2
    exact inv_append_new hash hInvM hload hpos (bucketReplace_eq_none_iff.mp hrep)

theorem inv_entry_map {m : HashMap K V} {k : K} {e : Entry K V}
    (hInv : Inv hash m) (he : m.entry hash k = some e) : Inv hash e.map := by
  rcases entry_spec hash m k with ⟨i, -, heq⟩ | ⟨-, heq⟩ <;>
  · have h2 := Option.some.inj (he.symm.trans heq)
    rw [h2]
    exact grown_inv hash hInv

theorem inv_or_insert_with {m : HashMap K V} {k : K} {e : Entry K V}
    (hInv : Inv hash m) (he : m.entry hash k = some e) (maker : Unit → V) :
    Inv hash (e.or_insert_with maker) := by
  have hInvM := grown_inv hash hInv
  have hload := grown_load hash hInv
  have hpos := grown_buckets_pos hash m
  rcases entry_spec hash m k with ⟨i, -, heq⟩ | ⟨habs, heq⟩
  · have h2 := Option.some.inj (he.symm.trans heq)
    rw [h2]
    exact hInvM
  · have h2 := Option.some.inj (he.symm.trans heq)
    rw [h2]
    exact inv_append_new hash hInvM hload hpos (bucketPosition_eq_none_iff.mp habs)

theorem inv_or_insert {m : HashMap K V} {k : K} {e : Entry K V}
    (hInv : Inv hash m) (he : m.entry hash k = some e) (v : V) :
    Inv hash (e.or_insert v) := by
  have hInvM := grown_inv hash hInv
  have hload := grown_load hash hInv
  have hpos := grown_buckets_pos hash m
  rcases entry_spec hash m k with ⟨i, -, heq⟩ | ⟨habs, heq⟩
  · have h2 := Option.some.inj (he.symm.trans heq)
    rw [h2]
    exact hInvM
  · have h2 := Option.some.inj (he.symm.trans heq)
    rw [h2]
    exact inv_append_new hash hInvM hload hpos (bucketPosition_eq_none_iff.mp habs)

theorem reachable_inv {m : HashMap K V} (h : Reachable hash m) : Inv hash m := by
  induction h with
  | new => exact inv_new hash
  | insert_step _ hi ih => exact inv_insert hash ih hi
  | remove_step _ ih => exact inv_remove hash ih _
  | entry_state _ he ih => exact inv_entry_map hash ih he
  | or_insert_step _ he ih => exact inv_or_insert hash ih he _
  | or_insert_with_step _ he ih => exact inv_or_insert_with hash ih he _

end BasicHashMap

/-! ## Operational characterisations -/

namespace BasicHashMap

open HashMap Entry

variable {K V : Type} [DecidableEq K] (hash : K → Nat)

theorem get_grown {m : HashMap K V} (hInv : Inv hash m) (k : K) :
    (grown hash m).get hash k = m.get hash k := by
  have hInvM := grown_inv hash hInv
  have hperm := grown_flatten_perm hash m
  cases hg : m.get hash k with
  | some v =>
    exact (get_eq_some_iff hash hInvM.2.2.2.1 hInvM.2.2.2.2).mpr
      (hperm.mem_iff.mpr ((get_eq_some_iff hash hInv.2.2.2.1 hInv.2.2.2.2).mp hg))
  | none =>
    refine (get_eq_none_iff hash hInvM.2.2.2.1).mpr ?_
    intro p hp
    exact (get_eq_none_iff hash hInv.2.2.2.1).mp hg p (hperm.mem_iff.mp hp)

theorem get_of_pos {m : HashMap K V} (hpos : 0 < m.buckets.length) (k : K) :
    m.get hash k = bucketFind k (m.buckets.getD (hash k % m.buckets.length) []) := by
  rw [HashMap.get, bucket, if_neg (by omega)]

theorem get_insert_self {m m' : HashMap K V} {k : K} {v : V} {r : Option V}
    (hins : m.insert hash k v = some (m', r)) : m'.get hash k = some v := by
  have hpos := grown_buckets_pos hash m
  rcases insert_spec hash m k v with ⟨c, old, hrep, heq⟩ | ⟨hrep, heq⟩
  · obtain ⟨pre, k', post, hb, hkk, hpre, hc⟩ := bucketReplace_eq_some hrep
    have h2 : (m', r) = _ := Option.some.inj (hins.symm.trans heq)
    rw [Prod.mk.injEq] at h2
    obtain ⟨rfl, rfl⟩ := h2
    have hlen : (HashMap.mk ((grown hash m).buckets.set
        (hash k % (grown hash m).buckets.length) c) (grown hash m).items).buckets.length
        = (grown hash m).buckets.length := by
      simp [List.length_set]
    rw [get_of_pos hash (by rw [hlen]; exact hpos), hlen]
    show bucketFind k (((grown hash m).buckets.set
      (hash k % (grown hash m).buckets.length) c).getD
        (hash k % (grown hash m).buckets.length) []) = some v
    rw [getD_set_self [] (Nat.mod_lt _ hpos), hc, bucketFind_append_of_none hpre, hkk,
      bucketFind_cons_self]
  · have habs := bucketReplace_eq_none_iff.mp hrep
    have h2 : (m', r) = _ := Option.some.inj (hins.symm.trans heq)
    rw [Prod.mk.injEq] at h2
    obtain ⟨rfl, rfl⟩ := h2
    have hlen : (HashMap.mk ((grown hash m).buckets.set
        (hash k % (grown hash m).buckets.length)
        ((grown hash m).buckets.getD (hash k % (grown hash m).buckets.length) []
          ++ [(k, v)])) ((grown hash m).items + 1)).buckets.length
        = (grown hash m).buckets.length := by
      simp [List.length_set]
    rw [get_of_pos hash (by rw [hlen]; exact hpos), hlen]
    show bucketFind k (((grown hash m).buckets.set
      (hash k % (grown hash m).buckets.length)
      ((grown hash m).buckets.getD (hash k % (grown hash m).buckets.length) []
        ++ [(k, v)])).getD (hash k % (grown hash m).buckets.length) []) = some v
    rw [getD_set_self [] (Nat.mod_lt _ hpos), bucketFind_append_of_none habs,
      bucketFind_cons_self]

end BasicHashMap

namespace BasicHashMap

open HashMap Entry

variable {K V : Type} [DecidableEq K] (hash : K → Nat)

theorem mem_home_bucket {M : HashMap K V} (hP : Placed hash M) {p : K × V}
    (hmem : p ∈ M.buckets.flatten) :
    p ∈ M.buckets.getD (hash p.1 % M.buckets.length) [] := by
  rcases mem_flatten_iff_getD.mp hmem with ⟨i, hi, hin⟩
  have hhome := hP i hi p hin
  rw [hhome]
  exact hin

theorem insert_present {m m' : HashMap K V} {k : K} {v w : V} {r : Option V}
    (hInv : Inv hash m) (hget : m.get hash k = some w)
    (hins : m.insert hash k v = some (m', r)) :
    r = some w ∧ m'.items = m.items := by
  have hInvM := grown_inv hash hInv
  have hpos := grown_buckets_pos hash m
  have hgM : (grown hash m).get hash k = some w := by
    rw [get_grown hash hInv]; exact hget
  have hmem := (get_eq_some_iff hash hInvM.2.2.2.1 hInvM.2.2.2.2).mp hgM
  have hmemb := mem_home_bucket hash hInvM.2.2.2.1 hmem
  rcases insert_spec hash m k v with ⟨c, old, hrep, heq⟩ | ⟨hrep, heq⟩
  · obtain ⟨pre, k', post, hb, hkk, hpre, hc⟩ := bucketReplace_eq_some hrep
    have holdmem : (k, old) ∈ (grown hash m).buckets.getD
        (hash k % (grown hash m).buckets.length) [] := by
      rw [hb]
      subst hkk
      exact List.mem_append.mpr (Or.inr (List.mem_cons_self _ _))
    have hold : old = w := eq_of_mem_of_nodup_keys hInvM.2.2.2.2
      (mem_flatten_iff_getD.mpr ⟨_, Nat.mod_lt _ hpos, holdmem⟩) hmem
    have h2 : (m', r) = _ := Option.some.inj (hins.symm.trans heq)
    rw [Prod.mk.injEq] at h2
    obtain ⟨rfl, rfl⟩ := h2
    exact ⟨by rw [hold], grown_items hash m⟩
  · exact absurd rfl (bucketReplace_eq_none_iff.mp hrep (k, w) hmemb)

theorem insert_absent {m m' : HashMap K V} {k : K} {v : V} {r : Option V}
    (hInv : Inv hash m) (hget : m.get hash k = none)
    (hins : m.insert hash k v = some (m', r)) :
    r = none ∧ m'.items = m.items + 1 := by
  have hInvM := grown_inv hash hInv
  have hpos := grown_buckets_pos hash m
  have hgM : (grown hash m).get hash k = none := by
    rw [get_grown hash hInv]; exact hget
  have hall := (get_eq_none_iff hash hInvM.2.2.2.1).mp hgM
  rcases insert_spec hash m k v with ⟨c, old, hrep, heq⟩ | ⟨hrep, heq⟩
  · obtain ⟨pre, k', post, hb, hkk, hpre, hc⟩ := bucketReplace_eq_some hrep
    have holdmem : (k', old) ∈ (grown hash m).buckets.getD
        (hash k % (grown hash m).buckets.length) [] := by
      rw [hb]
      exact List.mem_append.mpr (Or.inr (List.mem_cons_self _ _))
    exact absurd hkk (hall (k', old)
      (mem_flatten_iff_getD.mpr ⟨_, Nat.mod_lt _ hpos, holdmem⟩))
  · have h2 : (m', r) = _ := Option.some.inj (hins.symm.trans heq)
    rw [Prod.mk.injEq] at h2
    obtain ⟨rfl, rfl⟩ := h2
    refine ⟨rfl, ?_⟩
    show (grown hash m).items + 1 = m.items + 1
    rw [grown_items]

end BasicHashMap

namespace BasicHashMap

open HashMap Entry

variable {K V : Type} [DecidableEq K] (hash : K → Nat)

theorem remove_absent {m : HashMap K V} {q : K} (hget : m.get hash q = none) :
    m.remove hash q = (m, none) := by
  rcases remove_spec hash m q with ⟨-, heq⟩ | ⟨bi, hb, -, heq⟩ | ⟨bi, i, hb, hpos2, heq⟩
  · exact heq
  · exact heq
  · obtain ⟨hlpos, hbiv, hbilt⟩ := bucket_eq_some_elim hash hb
    obtain ⟨pre, p, post, hbdecomp, hprelen, hpq, hpre⟩ := bucketPosition_eq_some hpos2
    rw [get_of_pos hash hlpos] at hget
    have hall := bucketFind_eq_none_iff.mp hget
    have hpmem : p ∈ m.buckets.getD bi [] := by
      rw [hbdecomp]
      exact List.mem_append.mpr (Or.inr (List.mem_cons_self _ _))
    rw [hbiv] at hpmem
    exact absurd hpq (hall p hpmem)

theorem remove_found {m : HashMap K V} {q : K} {v : V}
    (hInv : Inv hash m) (hget : m.get hash q = some v) :
    (m.remove hash q).2 = some v ∧ (m.remove hash q).1.items = m.items - 1 ∧
      (m.remove hash q).1.get hash q = none := by
  rcases remove_spec hash m q with ⟨hb, heq⟩ | ⟨bi, hb, hpos2, heq⟩ | ⟨bi, i, hb, hpos2, heq⟩
  · rw [HashMap.get, hb] at hget
    cases hget
  · obtain ⟨hlpos, hbiv, hbilt⟩ := bucket_eq_some_elim hash hb
    rw [get_of_pos hash hlpos] at hget
    have hfind := mem_of_bucketFind_eq_some hget
    have hall := bucketPosition_eq_none_iff.mp hpos2
    rw [← hbiv] at hfind
    exact absurd rfl (hall (q, v) hfind)
  · obtain ⟨hlpos, hbiv, hbilt⟩ := bucket_eq_some_elim hash hb
    obtain ⟨pre, p, post, hbdecomp, hprelen, hpq, hpre⟩ := bucketPosition_eq_some hpos2
    obtain ⟨pk, pv⟩ := p
    obtain ⟨hcount, h0, hload, hP, hnd⟩ := hInv
    have hpk : pk = q := hpq
    rw [hpk] at hbdecomp
    -- the pair at index i
    have hgeti : (m.buckets.getD bi []).get? i = some (q, pv) := by
      rw [hbdecomp, ← hprelen, List.get?_eq_getElem?,
        List.getElem?_append_right (Nat.le_refl _)]
      simp
    -- its value is the unique value stored at key q
    have hbsub : List.Sublist (m.buckets.getD bi []) m.buckets.flatten := by
      rw [flatten_decomp m.buckets bi hbilt, getD_eq_getElem [] hbilt]
      exact (List.sublist_append_left _ _).trans (List.sublist_append_right _ _)
    have hqm : (q, pv) ∈ m.buckets.flatten := by
      refine hbsub.subset ?_
      rw [hbdecomp]
      exact List.mem_append.mpr (Or.inr (List.mem_cons_self _ _))
    have hvm : (q, v) ∈ m.buckets.flatten :=
      (get_eq_some_iff hash hP hnd).mp hget
    have hpv : pv = v := eq_of_mem_of_nodup_keys hnd hqm hvm
    -- the surviving bucket holds no key q
    have hbnodup : ((m.buckets.getD bi []).map Prod.fst).Nodup :=
      hnd.sublist (hbsub.map Prod.fst)
    have hqpost : ∀ x ∈ post, x.1 ≠ q := by
      intro x hx hxq
      rw [hbdecomp] at hbnodup
      simp only [List.map_append, List.map_cons] at hbnodup
      rcases List.nodup_append.mp hbnodup with ⟨-, h2, -⟩
      exact (List.nodup_cons.mp h2).1 (hxq ▸ List.mem_map_of_mem Prod.fst hx)
    have hib : i < (m.buckets.getD bi []).length := by
      rw [hbdecomp, ← hprelen]
      simp
    have herase : (m.buckets.getD bi []).eraseIdx i = pre ++ post := by
      rw [hbdecomp, ← hprelen, List.eraseIdx_eq_take_drop_succ, List.take_left]
      congr 1
      have hsplit : pre ++ (q, pv) :: post = (pre ++ [(q, pv)]) ++ post := by simp
      have hlen1 : pre.length + 1 = (pre ++ [(q, pv)]).length := by simp
      rw [hsplit, hlen1, List.drop_left]
    have hsurv : ∀ x ∈ swapRemoveList (m.buckets.getD bi []) i, x.1 ≠ q := by
      intro x hx
      have : x ∈ pre ++ post := by
        rw [← herase]
        exact (swapRemoveList_perm_eraseIdx hib).mem_iff.mp hx
      rcases List.mem_append.mp this with h1 | h1
      · exact hpre x h1
      · exact hqpost x h1
    refine ⟨?_, ?_, ?_⟩
    · rw [heq]
      show ((m.buckets.getD bi []).get? i).map Prod.snd = some v
      rw [hgeti]
      simp [hpv]
    · rw [heq]
    · rw [heq]
      show (HashMap.mk (m.buckets.set bi
          (swapRemoveList (m.buckets.getD bi []) i)) (m.items - 1)).get hash q = none
      have hlen2 : (m.buckets.set bi
          (swapRemoveList (m.buckets.getD bi []) i)).length = m.buckets.length :=
        List.length_set _ _ _
      rw [get_of_pos hash (by rw [hlen2]; omega)]
      show bucketFind q ((m.buckets.set bi
        (swapRemoveList (m.buckets.getD bi []) i)).getD
          (hash q % (m.buckets.set bi
            (swapRemoveList (m.buckets.getD bi []) i)).length) []) = none
      rw [hlen2, ← hbiv, getD_set_self [] hbilt]
      exact bucketFind_eq_none_iff.mpr hsurv

end BasicHashMap

/-! ## Iterator lemmas -/

namespace BasicHashMap

open HashMap Entry

namespace HashMap

variable {K V : Type}

theorem iterNext_none_of_ge {m : HashMap K V} {bkt a : Nat}
    (h : m.buckets.length ≤ bkt) : iterNext m bkt a = none := by
  rw [iterNext]
  have hg : m.buckets.get? bkt = none := by
    rw [List.get?_eq_getElem?, List.getElem?_eq_none h]
  rw [hg]

theorem iterNext_stay {m : HashMap K V} {bkt a : Nat} {b : List (K × V)} {kv : K × V}
    (hg : m.buckets.get? bkt = some b) (hga : b.get? a = some kv) :
    iterNext m bkt a = some (kv, bkt, a + 1) := by
  rw [iterNext, hg]
  show (match b.get? a with
    | some kv => some (kv, bkt, a + 1)
    | none => iterNext m (bkt + 1) 0) = some (kv, bkt, a + 1)
  rw [hga]

theorem iterNext_skip {m : HashMap K V} {bkt a : Nat} {b : List (K × V)}
    (hg : m.buckets.get? bkt = some b) (hga : b.get? a = none) :
    iterNext m bkt a = iterNext m (bkt + 1) 0 := by
  rw [iterNext, hg]
  show (match b.get? a with
    | some kv => some (kv, bkt, a + 1)
    | none => iterNext m (bkt + 1) 0) = iterNext m (bkt + 1) 0
  rw [hga]

theorem iterToList_none {m : HashMap K V} {bkt a : Nat}
    (h : iterNext m bkt a = none) : iterToList m bkt a = [] := by
  rw [iterToList, h]

theorem iterToList_some {m : HashMap K V} {bkt a : Nat} {kv : K × V} {b' a' : Nat}
    (h : iterNext m bkt a = some (kv, b', a')) :
    iterToList m bkt a = kv :: iterToList m b' a' := by
  rw [iterToList, h]

theorem iterToList_congr {m : HashMap K V} {bkt a bkt' a' : Nat}
    (h : iterNext m bkt a = iterNext m bkt' a') :
    iterToList m bkt a = iterToList m bkt' a' := by
  cases hx : iterNext m bkt' a' with
  | none => rw [iterToList_none (h.trans hx), iterToList_none hx]
  | some s =>
    obtain ⟨kv, b2, a2⟩ := s
    rw [iterToList_some (h.trans hx), iterToList_some hx]

theorem flatten_drop_succ (m : HashMap K V) (bkt : Nat) :
    (m.buckets.drop bkt).flatten =
      m.buckets.getD bkt [] ++ (m.buckets.drop (bkt + 1)).flatten := by
  rcases Nat.lt_or_ge bkt m.buckets.length with hlt | hge
  · rw [List.drop_eq_getElem_cons hlt, List.flatten_cons, getD_eq_getElem [] hlt]
  · rw [List.drop_eq_nil_of_le hge, List.drop_eq_nil_of_le (by omega),
      getD_eq_default [] hge]
    rfl

theorem iterToList_of_ge {m : HashMap K V} {bkt : Nat} (a : Nat)
    (h : m.buckets.length ≤ bkt) : iterToList m bkt a = [] :=
  iterToList_none (iterNext_none_of_ge h)

theorem iterToList_eq_drop_flatten (m : HashMap K V) :
    ∀ n bkt, m.buckets.length - bkt ≤ n →
    ∀ j a, (m.buckets.getD bkt []).length - a ≤ j →
      iterToList m bkt a = ((m.buckets.getD bkt []).drop a)
        ++ (m.buckets.drop (bkt + 1)).flatten := by
  intro n
  induction n with
  | zero =>
    intro bkt hn j a hj
    have hge : m.buckets.length ≤ bkt := by omega
    rw [iterToList_of_ge a hge, getD_eq_default [] hge, List.drop_nil,
      List.drop_eq_nil_of_le (show m.buckets.length ≤ bkt + 1 by omega)]
    rfl
  | succ n ihn =>
    intro bkt hn j
    induction j with
    | zero =>
      intro a hj
      cases hg : m.buckets.get? bkt with
      | none =>
        have hge : m.buckets.length ≤ bkt := by
          rcases Nat.lt_or_ge bkt m.buckets.length with hlt | hge2
          · rw [List.get?_eq_getElem?, List.getElem?_eq_getElem hlt] at hg
            cases hg
          · exact hge2
        rw [iterToList_of_ge a hge, getD_eq_default [] hge, List.drop_nil,
          List.drop_eq_nil_of_le (show m.buckets.length ≤ bkt + 1 by omega)]
        rfl
      | some b =>
        have hbkt : bkt < m.buckets.length := (List.get?_eq_some.mp hg).1
        have hgd : m.buckets.getD bkt [] = b := by
          rw [List.getD_eq_getElem?_getD, ← List.get?_eq_getElem?, hg]
          rfl
        have hga : b.get? a = none := by
          rw [List.get?_eq_getElem?, List.getElem?_eq_none]
          rw [hgd] at hj
          omega
        rw [iterToList_congr (iterNext_skip hg hga)]
        rw [ihn (bkt + 1) (by omega) (m.buckets.getD (bkt + 1) []).length 0 (by omega)]
        rw [List.drop_zero, ← flatten_drop_succ]
        rw [hgd, List.drop_eq_nil_of_le (show b.length ≤ a by rw [hgd] at hj; omega)]
        rfl
    | succ j ihj =>
      intro a hj
      cases hg : m.buckets.get? bkt with
      | none =>
        have hge : m.buckets.length ≤ bkt := by
          rcases Nat.lt_or_ge bkt m.buckets.length with hlt | hge2
          · rw [List.get?_eq_getElem?, List.getElem?_eq_getElem hlt] at hg
            cases hg
          · exact hge2
        rw [iterToList_of_ge a hge, getD_eq_default [] hge, List.drop_nil,
          List.drop_eq_nil_of_le (show m.buckets.length ≤ bkt + 1 by omega)]
        rfl
      | some b =>
        have hbkt : bkt < m.buckets.length := (List.get?_eq_some.mp hg).1
        have hgd : m.buckets.getD bkt [] = b := by
          rw [List.getD_eq_getElem?_getD, ← List.get?_eq_getElem?, hg]
          rfl
        cases hga : b.get? a with
        | none =>
          have hanil : b.length ≤ a := by
            rw [List.get?_eq_getElem?] at hga
            rcases Nat.lt_or_ge a b.length with hlt | hge2
            · rw [List.getElem?_eq_getElem hlt] at hga
              cases hga
            · exact hge2
          rw [iterToList_congr (iterNext_skip hg hga)]
          rw [ihn (bkt + 1) (by omega) (m.buckets.getD (bkt + 1) []).length 0 (by omega)]
          rw [List.drop_zero, ← flatten_drop_succ]
          rw [hgd, List.drop_eq_nil_of_le hanil]
          rfl
        | some kv =>
          have halt : a < b.length := (List.get?_eq_some.mp hga).1
          rw [iterToList_some (iterNext_stay hg hga)]
          rw [ihj (a + 1) (by rw [hgd] at hj; rw [hgd]; omega)]
          rw [hgd, List.drop_eq_getElem_cons halt]
          have : b[a] = kv := by
            have := (List.get?_eq_some.mp hga).2
            exact this
          rw [this]
          rfl

theorem iterToList_eq_flatten (m : HashMap K V) :
    iterToList m 0 0 = m.buckets.flatten := by
  rw [iterToList_eq_drop_flatten m (m.buckets.length) 0 (by omega)
    ((m.buckets.getD 0 []).length) 0 (by omega)]
  rw [List.drop_zero, ← flatten_drop_succ, List.drop_zero]

end HashMap

end BasicHashMap

namespace BasicHashMap

open HashMap Entry

variable {K V : Type} [DecidableEq K] (hash : K → Nat)

theorem entry_occupied_of_present {m : HashMap K V} (hInv : Inv hash m) {k : K} {w : V}
    (hget : m.get hash k = some w) :
    ∃ e, m.entry hash k = some e ∧ e.isVacant = false ∧
      (∀ maker, (e.orInsertWithCount maker).2 = 0) ∧
      (∀ maker, e.or_insert_with maker = e.map) := by
  have hInvM := grown_inv hash hInv
  have hpos := grown_buckets_pos hash m
  have hgM : (grown hash m).get hash k = some w := by
    rw [get_grown hash hInv]; exact hget
  have hmem := (get_eq_some_iff hash hInvM.2.2.2.1 hInvM.2.2.2.2).mp hgM
  have hmemb := mem_home_bucket hash hInvM.2.2.2.1 hmem
  rcases entry_spec hash m k with ⟨i, hp2, heq⟩ | ⟨habs, heq⟩
  · exact ⟨_, heq, rfl, fun maker => rfl, fun maker => rfl⟩
  · exact absurd rfl ((bucketPosition_eq_none_iff.mp habs) (k, w) hmemb)

theorem entry_vacant_of_absent {m : HashMap K V} (hInv : Inv hash m) {k : K}
    (hget : m.get hash k = none) :
    ∃ e, m.entry hash k = some e ∧ e.isVacant = true ∧
      (∀ maker, (e.orInsertWithCount maker).2 = 1) := by
  have hInvM := grown_inv hash hInv
  have hpos := grown_buckets_pos hash m
  have hgM : (grown hash m).get hash k = none := by
    rw [get_grown hash hInv]; exact hget
  have hall := (get_eq_none_iff hash hInvM.2.2.2.1).mp hgM
  rcases entry_spec hash m k with ⟨i, hp2, heq⟩ | ⟨habs, heq⟩
  · obtain ⟨pre, p, post, hb, hlen, hpk, hpre⟩ := bucketPosition_eq_some hp2
    have hpm : p ∈ (grown hash m).buckets.getD
        (hash k % (grown hash m).buckets.length) [] := by
      rw [hb]
      exact List.mem_append.mpr (Or.inr (List.mem_cons_self _ _))
    exact absurd hpk
      (hall p (mem_flatten_iff_getD.mpr ⟨_, Nat.mod_lt _ hpos, hpm⟩))
  · exact ⟨_, heq, rfl, fun maker => rfl⟩

end BasicHashMap

/-! ## The specification claims -/

namespace BasicHashMap

open HashMap Entry

variable {K V : Type} [DecidableEq K] (hash : K → Nat)

/-- The table reached from `new` by inserting the pair `(1, 10)` under the
identity hash: the first insert resizes `0 → 1` bucket and stores the pair. -/
theorem reachable_one :
    Reachable (fun n => n) (⟨[[(1, 10)]], 1⟩ : HashMap Nat Nat) :=
  @Reachable.insert_step Nat Nat _ (fun n => n) HashMap.new ⟨[[(1, 10)]], 1⟩ 1 10 none
    Reachable.new (by decide)

/-- Claim C1: for every table state reachable through the public API, the
stored item counter equals the sum of the lengths of all buckets, so `len()`
always reports the number of stored pairs. -/
theorem claim_items_matches_stored_pairs {m : HashMap K V}
    (h : Reachable hash m) :
    m.items = sumLens m.buckets ∧ m.len = sumLens m.buckets :=
  ⟨(reachable_inv hash h).1, (reachable_inv hash h).1⟩

theorem claim_items_matches_stored_pairs_witness :
    (⟨[[(1, 10)]], 1⟩ : HashMap Nat Nat).items =
      sumLens (⟨[[(1, 10)]], 1⟩ : HashMap Nat Nat).buckets ∧
    (⟨[[(1, 10)]], 1⟩ : HashMap Nat Nat).len =
      sumLens (⟨[[(1, 10)]], 1⟩ : HashMap Nat Nat).buckets :=
  claim_items_matches_stored_pairs (fun n => n) reachable_one

/-- Claim C2: inserting over an already-present key returns the previous
value, an immediate lookup yields the new value, and `len()` is unchanged by
the pure update. -/
theorem claim_update_semantics {m m' : HashMap K V} {k : K} {v_old v_new : V}
    {r : Option V} (hreach : Reachable hash m) (hget : m.get hash k = some v_old)
    (hins : m.insert hash k v_new = some (m', r)) :
    r = some v_old ∧ m'.get hash k = some v_new ∧ m'.len = m.len := by
  have hInv := reachable_inv hash hreach
  obtain ⟨hr, hitems⟩ := insert_present hash hInv hget hins
  exact ⟨hr, get_insert_self hash hins, hitems⟩

theorem claim_update_semantics_witness :
    (some 10 : Option Nat) = some 10 ∧
    (⟨[[], [(1, 20)]], 1⟩ : HashMap Nat Nat).get (fun n => n) 1 = some 20 ∧
    (⟨[[], [(1, 20)]], 1⟩ : HashMap Nat Nat).len =
      (⟨[[(1, 10)]], 1⟩ : HashMap Nat Nat).len :=
  claim_update_semantics (fun n => n) reachable_one (by decide) (by decide)

/-- Claim C3 (counterexample): on the reachable table holding `(1, 10)`,
`insert 1 20` replaces the value and does **not** increment the live-item
counter, refuting "the live-item counter is incremented exactly once by that
call, even when the call replaces the value of an already-present key". -/
theorem claim_insert_increments_counterexample :
    Reachable (fun n => n) (⟨[[(1, 10)]], 1⟩ : HashMap Nat Nat) ∧
    (⟨[[(1, 10)]], 1⟩ : HashMap Nat Nat).insert (fun n => n) 1 20 =
      some (⟨[[], [(1, 20)]], 1⟩, some 10) ∧
    ¬ ((⟨[[], [(1, 20)]], 1⟩ : HashMap Nat Nat).items =
      (⟨[[(1, 10)]], 1⟩ : HashMap Nat Nat).items + 1) :=
  ⟨reachable_one, by decide, by decide⟩

/-- Claim C3 (amended): every `insert` call increments the live-item counter
exactly once when it stores a new key (returning `None`), and leaves the
counter unchanged when it replaces the value of an already-present key
(returning `Some` of the old value). -/
theorem claim_insert_increments_amended {m m' : HashMap K V} {k : K} {v : V}
    {r : Option V} (hins : m.insert hash k v = some (m', r)) :
    (r = none → m'.items = m.items + 1) ∧
    (∀ w, r = some w → m'.items = m.items) := by
  rcases insert_spec hash m k v with ⟨c, old, hrep, heq⟩ | ⟨hrep, heq⟩
  · have h2 : (m', r) = _ := Option.some.inj (hins.symm.trans heq)
    rw [Prod.mk.injEq] at h2
    obtain ⟨rfl, rfl⟩ := h2
    constructor
    · intro h
      cases h
    · intro w _
      exact grown_items hash m
  · have h2 : (m', r) = _ := Option.some.inj (hins.symm.trans heq)
    rw [Prod.mk.injEq] at h2
    obtain ⟨rfl, rfl⟩ := h2
    constructor
    · intro _
      show (grown hash m).items + 1 = m.items + 1
      rw [grown_items]
    · intro w h
      cases h

theorem claim_insert_increments_amended_witness :
    (⟨[[(1, 10)]], 1⟩ : HashMap Nat Nat).items =
      (HashMap.new : HashMap Nat Nat).items + 1 :=
  (@claim_insert_increments_amended Nat Nat _ (fun n => n) HashMap.new
    ⟨[[(1, 10)]], 1⟩ 1 10 none (by decide)).1 rfl

/-- Claim C4: after `insert k v`, an immediate `get k` returns `Some v`;
`remove k` then returns `Some v`, and a subsequent `get k` returns `None`. -/
theorem claim_insert_roundtrip {m m' : HashMap K V} {k : K} {v : V} {r : Option V}
    (hreach : Reachable hash m) (hins : m.insert hash k v = some (m', r)) :
    m'.get hash k = some v ∧ (m'.remove hash k).2 = some v ∧
      (m'.remove hash k).1.get hash k = none := by
  have hreach' : Reachable hash m' := Reachable.insert_step hreach hins
  have hInv' := reachable_inv hash hreach'
  have hget' := get_insert_self hash hins
  obtain ⟨h1, -, h3⟩ := remove_found hash hInv' hget'
  exact ⟨hget', h1, h3⟩

theorem claim_insert_roundtrip_witness :
    (⟨[[(1, 10)]], 1⟩ : HashMap Nat Nat).get (fun n => n) 1 = some 10 ∧
    ((⟨[[(1, 10)]], 1⟩ : HashMap Nat Nat).remove (fun n => n) 1).2 = some 10 ∧
    ((⟨[[(1, 10)]], 1⟩ : HashMap Nat Nat).remove (fun n => n) 1).1.get
      (fun n => n) 1 = none :=
  @claim_insert_roundtrip Nat Nat _ (fun n => n) HashMap.new ⟨[[(1, 10)]], 1⟩
    1 10 none Reachable.new (by decide)

/-- Claim C5: after any insert/entry call on a reachable state — indeed on
every reachable state — `items ≤ 3 * max(len(buckets), 1) / 4 + 1`. -/
theorem claim_growth_invariant {m : HashMap K V} (h : Reachable hash m) :
    m.items ≤ 3 * max m.buckets.length 1 / 4 + 1 :=
  (reachable_inv hash h).2.2.1

theorem claim_growth_invariant_witness :
    (⟨[[(1, 10)]], 1⟩ : HashMap Nat Nat).items ≤
      3 * max (⟨[[(1, 10)]], 1⟩ : HashMap Nat Nat).buckets.length 1 / 4 + 1 :=
  claim_growth_invariant (fun n => n) reachable_one

/-- Claim C6: `resize` replaces the bucket array with a fresh one of size 1
(from 0 buckets) or twice the old size, moves every pair to the bucket given
by its hash modulo the new count, and leaves the multiset of stored pairs
(up to permutation) and the item counter unchanged. -/
theorem claim_resize_spec (m : HashMap K V) :
    (m.resize hash).buckets.length =
      (if m.buckets.length = 0 then 1 else 2 * m.buckets.length) ∧
    (m.resize hash).items = m.items ∧
    ((m.resize hash).buckets.flatten).Perm m.buckets.flatten ∧
    (∀ i, i < (m.resize hash).buckets.length →
      ∀ p ∈ (m.resize hash).buckets.getD i [],
        hash p.1 % (m.resize hash).buckets.length = i) :=
  ⟨resize_buckets_length hash m, resize_items hash m, resize_flatten_perm hash m,
    resize_placed hash m⟩

theorem claim_resize_spec_witness :
    ((⟨[[(1, 10)]], 1⟩ : HashMap Nat Nat).resize (fun n => n)).items = 1 ∧
    (fun n => n : Nat → Nat) 1 %
      ((⟨[[(1, 10)]], 1⟩ : HashMap Nat Nat).resize (fun n => n)).buckets.length = 1 :=
  ⟨(claim_resize_spec (fun n => n) ⟨[[(1, 10)]], 1⟩).2.1,
   (claim_resize_spec (fun n => n) ⟨[[(1, 10)]], 1⟩).2.2.2 1 (by decide)
     (1, 10) (by decide)⟩

/-- Claim C7: removing a key that is not present (including on the
zero-bucket empty table) returns `None` and leaves the table completely
unchanged. -/
theorem claim_remove_absent_noop {m : HashMap K V} {q : K}
    (hget : m.get hash q = none) : m.remove hash q = (m, none) :=
  remove_absent hash hget

theorem claim_remove_absent_noop_witness :
    (HashMap.new : HashMap Nat Nat).remove (fun n => n) 0 = (HashMap.new, none) :=
  claim_remove_absent_noop (fun n => n) (by decide)

/-- Claim C8: on a reachable table, `entry k` for a present key is Occupied
and `or_insert_with` never invokes the thunk; for an absent key it is Vacant
and the thunk is invoked exactly once. -/
theorem claim_entry_laziness {m : HashMap K V} {k : K}
    (hreach : Reachable hash m) :
    ((m.get hash k).isSome →
      ∃ e, m.entry hash k = some e ∧ e.isVacant = false ∧
        ∀ maker, (e.orInsertWithCount maker).2 = 0) ∧
    (m.get hash k = none →
      ∃ e, m.entry hash k = some e ∧ e.isVacant = true ∧
        ∀ maker, (e.orInsertWithCount maker).2 = 1) := by
  have hInv := reachable_inv hash hreach
  constructor
  · intro hsome
    obtain ⟨w, hw⟩ := Option.isSome_iff_exists.mp hsome
    obtain ⟨e, he, hv, hc, -⟩ := entry_occupied_of_present hash hInv hw
    exact ⟨e, he, hv, hc⟩
  · intro hnone
    exact entry_vacant_of_absent hash hInv hnone

theorem claim_entry_laziness_witness :
    ∃ e, (⟨[[(1, 10)]], 1⟩ : HashMap Nat Nat).entry (fun n => n) 1 = some e ∧
      e.isVacant = false ∧ ∀ maker, (e.orInsertWithCount maker).2 = 0 :=
  (claim_entry_laziness (fun n => n) reachable_one).1 (by decide)

/-- Claim C9: on a reachable table with N stored pairs, running the
borrowing traversal to exhaustion yields the bucket contents in ascending
bucket order (it terminates, being a well-founded recursion), visiting
exactly `items`-many pairs, each stored key exactly once, each key paired
with the value `get` reports — the most recently inserted one. -/
theorem claim_traversal_completeness {m : HashMap K V}
    (hreach : Reachable hash m) :
    iterToList m 0 0 = m.buckets.flatten ∧
    (iterToList m 0 0).length = m.items ∧
    ((iterToList m 0 0).map Prod.fst).Nodup ∧
    ∀ k v, ((k, v) ∈ iterToList m 0 0 ↔ m.get hash k = some v) := by
  have hInv := reachable_inv hash hreach
  have hflat := iterToList_eq_flatten m
  refine ⟨hflat, ?_, ?_, ?_⟩
  · rw [hflat, ← sumLens_eq_flatten_length, ← hInv.1]
  · rw [hflat]
    exact hInv.2.2.2.2
  · intro k v
    rw [hflat]
    exact (get_eq_some_iff hash hInv.2.2.2.1 hInv.2.2.2.2).symm

theorem claim_traversal_completeness_witness :
    iterToList (HashMap.new : HashMap Nat Nat) 0 0 =
      (HashMap.new : HashMap Nat Nat).buckets.flatten ∧
    (iterToList (HashMap.new : HashMap Nat Nat) 0 0).length =
      (HashMap.new : HashMap Nat Nat).items ∧
    ((iterToList (HashMap.new : HashMap Nat Nat) 0 0).map Prod.fst).Nodup ∧
    ∀ k v, ((k, v) ∈ iterToList (HashMap.new : HashMap Nat Nat) 0 0 ↔
      (HashMap.new : HashMap Nat Nat).get (fun n => n) k = some v) :=
  claim_traversal_completeness (fun n => n) Reachable.new

/-- Claim C10: `insert` and `entry` never reach their internal failure
branch: after the leading resize the bucket array is non-empty, so
`bucket` yields a valid index below the bucket count and both operations
always succeed (no panic). -/
theorem claim_no_panic :
    (∀ (m : HashMap K V) (k : K) (v : V), (m.insert hash k v).isSome) ∧
    (∀ (m : HashMap K V) (k : K), (m.entry hash k).isSome) ∧
    (∀ (m : HashMap K V) (k : K), m.buckets.length ≠ 0 →
      ∃ bi, m.bucket hash k = some bi ∧ bi < m.buckets.length) := by
  refine ⟨?_, ?_, ?_⟩
  · intro m k v
    rcases insert_spec hash m k v with ⟨c, old, -, heq⟩ | ⟨-, heq⟩ <;> rw [heq] <;> rfl
  · intro m k
    rcases entry_spec hash m k with ⟨i, -, heq⟩ | ⟨-, heq⟩ <;> rw [heq] <;> rfl
  · intro m k h0
    refine ⟨hash k % m.buckets.length, ?_, Nat.mod_lt _ (Nat.pos_of_ne_zero h0)⟩
    rw [bucket, if_neg h0]

theorem claim_no_panic_witness :
    ((HashMap.new : HashMap Nat Nat).insert (fun n => n) 1 2).isSome ∧
    ∃ bi, (⟨[[(1, 10)]], 1⟩ : HashMap Nat Nat).bucket (fun n => n) 1 = some bi ∧
      bi < (⟨[[(1, 10)]], 1⟩ : HashMap Nat Nat).buckets.length :=
  ⟨(claim_no_panic (fun n => n)).1 HashMap.new 1 2,
   (claim_no_panic (fun n => n)).2.2 ⟨[[(1, 10)]], 1⟩ 1 (by decide)⟩

end BasicHashMap
